import Mathlib

/-!
# Verification of the Chilean RUT validator (`validate-chilean-rut.ts`)

Shallow embedding of the RUT validation module: `cleanRut`,
`calculateVerificationDigit`, `isValidRut`, `formatRut`, `validateRut`.

Strings are modelled through their character lists (`String.data`), JS
characters through their code points (`Char.toNat`), and the one throwing
primitive (`String(x)` on an object whose `toString` throws) through
`Except Unit`.  The `try { ... } catch` in `cleanRut` and `isValidRut`
is mirrored by matching on the `Except` result.
-/

/-- Model of the JS values the library can receive: `null`, `undefined`,
strings, integral numbers, objects with a working `toString`, and objects
whose `toString` throws. -/
inductive RawInput where
  | jsNull
  | jsUndefined
  | str (s : String)
  | num (n : Int)
  | objWith (s : String)
  | objThrowing
deriving DecidableEq

/-- JS `String(x)`: total except on an object whose `toString` throws. -/
def jsString : RawInput → Except Unit String
  | .jsNull => .ok "null"
  | .jsUndefined => .ok "undefined"
  | .str s => .ok s
  | .num n => .ok (toString n)
  | .objWith s => .ok s
  | .objThrowing => .error ()

/-- The regex class `\d` = `[0-9]`, by code point (48–57). -/
def isDigitCh (c : Char) : Bool := decide (48 ≤ c.toNat ∧ c.toNat ≤ 57)

/-- The regex class `\s` (the whitespace characters relevant here):
tab, LF, VT, FF, CR, space, NBSP. -/
def jsWhitespace (c : Char) : Bool :=
  decide (c.toNat = 9 ∨ c.toNat = 10 ∨ c.toNat = 11 ∨ c.toNat = 12 ∨
          c.toNat = 13 ∨ c.toNat = 32 ∨ c.toNat = 160)

/-- The character class `[.-\s]` of `cleanRut`'s `replace`:
`.` (46), `-` (45), or whitespace. -/
def isRemovedCh (c : Char) : Bool :=
  decide (c.toNat = 46 ∨ c.toNat = 45) || jsWhitespace c

/-- JS `toUpperCase` restricted to ASCII, which is all the library's
character set needs: `a`–`z` (97–122) map down by 32. -/
def jsToUpper (c : Char) : Char :=
  if 97 ≤ c.toNat ∧ c.toNat ≤ 122 then Char.ofNat (c.toNat - 32) else c

/-- `s.replace(/[.-\s]/g, '').toUpperCase()` on the character list. -/
def cleanChars (l : List Char) : List Char :=
  (l.filter (fun c => !isRemovedCh c)).map jsToUpper

/-- String-level wrapper of `cleanChars`. -/
def cleanString (s : String) : String := ⟨cleanChars s.data⟩

/-- `cleanRut`: `null`/`undefined` give `""`; a throwing `String(x)` is
caught and gives `""`; otherwise separators are stripped and the rest
upper-cased. -/
def cleanRut (rut : RawInput) : String :=
  match rut with
  | .jsNull => ""
  | .jsUndefined => ""
  | r =>
    match jsString r with
    | .error _ => ""
    | .ok s => cleanString s

/-- The `multipliers` array `[2, 3, 4, 5, 6, 7, 2, 3, 4, 5, 6, 7]`. -/
def multipliers : List Nat := [2, 3, 4, 5, 6, 7, 2, 3, 4, 5, 6, 7]

/-- `parseInt` of a single digit character. -/
def digitVal (c : Char) : Nat := c.toNat - 48

/-- The accumulation loop of `calculateVerificationDigit`:
`sum += parseInt(rutDigits[i], 10) * multipliers[i % multipliers.length]`,
where the list argument is already the reversed digit sequence and the
second argument is the running index `i`. -/
def weightedSum : List Char → Nat → Nat
  | [], _ => 0
  | c :: cs, i => digitVal c * multipliers.getD (i % 12) 0 + weightedSum cs (i + 1)

/-- The regex test `^\d+$`. -/
def digitsOnly (s : String) : Bool := !s.data.isEmpty && s.data.all isDigitCh

/-- `calculateVerificationDigit`: guards (`^\d+$`, length ≤ 20) yield `''`;
then the weighted modulo-11 computation with the mapping
`11 → '0'`, `10 → 'K'`, otherwise the decimal digit. -/
def calculateVerificationDigit (rutNumber : String) : String :=
  if digitsOnly rutNumber = false then ""
  else if rutNumber.length > 20 then ""
  else
    let sum := weightedSum rutNumber.data.reverse 0
    let remainder := sum % 11
    let verificationDigit := 11 - remainder
    if verificationDigit = 11 then "0"
    else if verificationDigit = 10 then "K"
    else toString verificationDigit

/-- The regex class `[K\d]` for the supplied check character. -/
def checkChar (c : Char) : Bool := decide (c.toNat = 75) || isDigitCh c

/-- The match of `^(\d+)([K\d])$`: succeeds exactly on a nonempty digit
sequence followed by one check character, returning the two groups. -/
def splitRut (l : List Char) : Option (List Char × Char) :=
  match l.getLast? with
  | none => none
  | some last =>
    if l.dropLast ≠ [] ∧ l.dropLast.all isDigitCh = true ∧ checkChar last = true then
      some (l.dropLast, last)
    else none

/-- Decides whether a list starts with the given pattern. -/
def startsWithL : List Char → List Char → Bool
  | [], _ => true
  | _ :: _, [] => false
  | p :: ps, c :: cs => p == c && startsWithL ps cs

/-- Decides whether the pattern occurs contiguously anywhere in the list
(the regex `test` of a literal pattern). -/
def hasInfixL (pat : List Char) : List Char → Bool
  | [] => startsWithL pat []
  | c :: cs => startsWithL pat (c :: cs) || hasInfixL pat cs

/-- The four malformed-separator tests of `isValidRut` on the original
string: the two-character patterns dash-dash, dot-dot, dot-dash, dash-dot. -/
def hasMalformedSeparators (s : String) : Bool :=
  hasInfixL ['-', '-'] s.data || hasInfixL ['.', '.'] s.data ||
  hasInfixL ['.', '-'] s.data || hasInfixL ['-', '.'] s.data

/-- The test `/[-.]/` on the original string (code points 45 and 46). -/
def hasSeparatorIn (s : String) : Bool :=
  s.data.any (fun c => decide (c.toNat = 45 ∨ c.toNat = 46))

/-- The body of `isValidRut` after `String(rut)` succeeded: the straight-line
sequence of rejection tests of the source, on the original string and the
cleaned string. -/
def isValidRutCore (rutString : String) (cleanedRut : String) : Bool :=
  if hasMalformedSeparators rutString = true then false
  else if cleanedRut.length < 2 then false
  else if cleanedRut.length > 20 then false
  else
    match splitRut cleanedRut.data with
    | none => false
    | some (rutNumber, providedVerificationDigit) =>
      if rutNumber.length > 20 then false
      else if calculateVerificationDigit ⟨rutNumber⟩ = "" then false
      else if hasSeparatorIn rutString = false ∧ rutNumber.length ≤ 7 then false
      else decide (calculateVerificationDigit ⟨rutNumber⟩ = ⟨[providedVerificationDigit]⟩)

/-- `isValidRut`'s `try` block: `String(rut)` may throw (propagated as
`error`); everything after it is total.  The second parameter is the
deprecated `requireVerificationDigit` flag, never read. -/
def isValidRutTry (rut : RawInput) (requireVerificationDigit : Bool) : Except Unit Bool :=
  match jsString rut with
  | .error e => .error e
  | .ok rutString => .ok (isValidRutCore rutString (cleanRut rut))

/-- `isValidRut`: the `catch` collapses any fault to `false`. -/
def isValidRut (rut : RawInput) (requireVerificationDigit : Bool) : Bool :=
  match isValidRutTry rut requireVerificationDigit with
  | .ok b => b
  | .error _ => false

/-- The grouping loop of `formatRut`: while more than 3 digits remain,
split off the last 3 (`remaining.slice(-3)`) and continue on the front
(`remaining.slice(0, -3)`); a final group of 1–3 digits is prepended. -/
def splitGroups (s : List Char) : List (List Char) :=
  if h : s.length > 3 then
    splitGroups (s.take (s.length - 3)) ++ [s.drop (s.length - 3)]
  else [s]
termination_by s.length
decreasing_by
  simp only [List.length_take]
  omega

/-- `parts.join('.')`. -/
def joinDot : List (List Char) → List Char
  | [] => []
  | [g] => g
  | g :: g2 :: gs => g ++ '.' :: joinDot (g2 :: gs)

/-- `formatRut`: `null` unless valid; otherwise re-clean, re-match, group
the body by 3 from the right joined with `.`, and append `-` and the
check character. -/
def formatRut (rut : RawInput) (requireVerificationDigit : Bool) : Option String :=
  if isValidRut rut requireVerificationDigit = false then none
  else
    match splitRut (cleanRut rut).data with
    | none => none
    | some (rutNumber, verificationDigit) =>
      some ⟨joinDot (splitGroups rutNumber) ++ '-' :: [verificationDigit]⟩

/-- The result record of `validateRut`; the optional fields `rutNumber`
and `verificationDigit` are absent (`none`) exactly when omitted in the
source's object literal. -/
structure RutValidationResult where
  isValid : Bool
  formatted : Option String
  raw : String
  rutNumber : Option String
  verificationDigit : Option String
deriving DecidableEq

/-- `validateRut`: the detailed result builder. -/
def validateRut (rut : RawInput) (requireVerificationDigit : Bool) : RutValidationResult :=
  let cleanedRut := cleanRut rut
  let valid := isValidRut rut requireVerificationDigit
  if valid = false then
    { isValid := false, formatted := none, raw := cleanedRut,
      rutNumber := none, verificationDigit := none }
  else
    match splitRut cleanedRut.data with
    | none =>
      { isValid := false, formatted := none, raw := cleanedRut,
        rutNumber := none, verificationDigit := none }
    | some (rutNumber, verificationDigit) =>
      { isValid := true, formatted := formatRut rut requireVerificationDigit,
        raw := cleanedRut, rutNumber := some ⟨rutNumber⟩,
        verificationDigit := some ⟨[verificationDigit]⟩ }

/-! ## Character-level facts -/

theorem isDigitCh_iff {c : Char} : isDigitCh c = true ↔ 48 ≤ c.toNat ∧ c.toNat ≤ 57 := by
  simp [isDigitCh]

theorem checkChar_iff {c : Char} :
    checkChar c = true ↔ c.toNat = 75 ∨ (48 ≤ c.toNat ∧ c.toNat ≤ 57) := by
  simp [checkChar, isDigitCh]

theorem checkChar_of_digit {c : Char} (h : isDigitCh c = true) : checkChar c = true := by
  simp [checkChar, h]

theorem jsToUpper_eq_self_of_lt {c : Char} (h : c.toNat < 97) : jsToUpper c = c := by
  unfold jsToUpper
  rw [if_neg]
  omega

theorem fixed_of_checkChar {c : Char} (h : checkChar c = true) :
    isRemovedCh c = false ∧ jsToUpper c = c := by
  rw [checkChar_iff] at h
  refine ⟨?_, jsToUpper_eq_self_of_lt (by omega)⟩
  simp [isRemovedCh, jsWhitespace]
  omega

theorem checkChar_not_sep {c : Char} (h : checkChar c = true) :
    (c.toNat = 45 ∨ c.toNat = 46) → False := by
  rw [checkChar_iff] at h
  omega

/-! ## Cleaning lemmas -/

theorem cleanChars_append (l1 l2 : List Char) :
    cleanChars (l1 ++ l2) = cleanChars l1 ++ cleanChars l2 := by
  simp [cleanChars]

theorem cleanChars_of_fixed {l : List Char}
    (h : ∀ c ∈ l, checkChar c = true) : cleanChars l = l := by
  induction l with
  | nil => rfl
  | cons a t ih =>
    have ha := fixed_of_checkChar (h a (by simp))
    have ht : cleanChars t = t := ih (fun c hc => h c (List.mem_cons_of_mem _ hc))
    unfold cleanChars at ht ⊢
    rw [List.filter_cons]
    simp [ha.1, ha.2, ht]

theorem cleanChars_cons_removed {c : Char} {l : List Char} (h : isRemovedCh c = true) :
    cleanChars (c :: l) = cleanChars l := by
  simp [cleanChars, List.filter_cons, h]

/-! ## `splitRut` inversion -/

theorem splitRut_eq_some_iff {l body : List Char} {dv : Char} :
    splitRut l = some (body, dv) ↔
      l = body ++ [dv] ∧ body ≠ [] ∧ body.all isDigitCh = true ∧ checkChar dv = true := by
  constructor
  · intro h
    induction l using List.reverseRecOn with
    | nil => simp [splitRut] at h
    | append_singleton as a _ =>
      simp only [splitRut, List.getLast?_concat, List.dropLast_concat] at h
      split_ifs at h with hc
      simp only [Option.some.injEq, Prod.mk.injEq] at h
      obtain ⟨rfl, rfl⟩ := h
      exact ⟨rfl, hc⟩
  · rintro ⟨rfl, hne, hdig, hcc⟩
    simp only [splitRut, List.getLast?_concat, List.dropLast_concat]
    rw [if_pos ⟨hne, hdig, hcc⟩]

/-! ## Substring (infix) lemmas for the separator regexes -/

theorem startsWithL_two_iff {a b : Char} {l : List Char} :
    startsWithL [a, b] l = true ↔ ∃ t, l = a :: b :: t := by
  match l with
  | [] => simp [startsWithL]
  | [c] => simp [startsWithL]
  | c :: d :: t =>
    simp only [startsWithL, Bool.and_eq_true, beq_iff_eq, and_true]
    constructor
    · rintro ⟨rfl, rfl⟩
      exact ⟨t, rfl⟩
    · rintro ⟨t', ht⟩
      injection ht with h1 ht
      injection ht with h2 _
      exact ⟨h1.symm, h2.symm⟩

theorem hasInfixL_two_iff {a b : Char} {l : List Char} :
    hasInfixL [a, b] l = true ↔ ∃ l1 l2, l = l1 ++ a :: b :: l2 := by
  induction l with
  | nil =>
    constructor
    · intro h
      simp [hasInfixL, startsWithL] at h
    · rintro ⟨l1, l2, he⟩
      exact absurd he.symm (by simp)
  | cons c cs ih =>
    rw [hasInfixL]
    simp only [Bool.or_eq_true, startsWithL_two_iff, ih]
    constructor
    · rintro (⟨t, ht⟩ | ⟨l1, l2, hl⟩)
      · exact ⟨[], t, by simpa using ht⟩
      · exact ⟨c :: l1, l2, by simp [hl]⟩
    · rintro ⟨l1, l2, he⟩
      cases l1 with
      | nil =>
        left
        exact ⟨l2, by simpa using he⟩
      | cons x xs =>
        right
        injection he with h1 h2
        exact ⟨xs, l2, h2⟩

theorem hasInfixL_two_mem {a b : Char} {l : List Char}
    (h : hasInfixL [a, b] l = true) : a ∈ l := by
  rw [hasInfixL_two_iff] at h
  obtain ⟨l1, l2, rfl⟩ := h
  simp

theorem hasMalformedSeparators_eq_false {s : String}
    (h : ∀ c ∈ s.data, checkChar c = true) : hasMalformedSeparators s = false := by
  have k : ∀ a b : Char, (a.toNat = 45 ∨ a.toNat = 46) →
      hasInfixL [a, b] s.data = false := by
    intro a b ha
    by_contra hx
    have hmem : a ∈ s.data := hasInfixL_two_mem (by
      cases hv : hasInfixL [a, b] s.data
      · exact absurd hv hx
      · rfl)
    exact checkChar_not_sep (h a hmem) ha
  unfold hasMalformedSeparators
  rw [k '-' '-' (by decide), k '.' '.' (by decide), k '.' '-' (by decide),
    k '-' '.' (by decide)]
  rfl

/-! ## Check-digit lemmas -/

theorem string_length_data (s : String) : s.length = s.data.length := rfl

/-- Follows the spec's words (§4.2): cyclic weights `2,3,4,5,6,7` repeating
every 6 positions, assigned starting from the least-significant digit. -/
def specWeightedSum : List Char → Nat → Nat
  | [], _ => 0
  | c :: cs, i => digitVal c * [2, 3, 4, 5, 6, 7].getD (i % 6) 0 + specWeightedSum cs (i + 1)

/-- Follows the spec's words (§4.2): `remainder = sum mod 11`,
`rawCheck = 11 - remainder`; `rawCheck = 11` maps to `'0'`, `rawCheck = 10`
maps to `'K'`, and any other `rawCheck` maps to its decimal digit. -/
def specCheckDigit (body : List Char) : String :=
  let sum := specWeightedSum body.reverse 0
  let remainder := sum % 11
  let rawCheck := 11 - remainder
  if rawCheck = 11 then "0"
  else if rawCheck = 10 then "K"
  else ⟨[Char.ofNat (48 + rawCheck)]⟩

theorem multipliers_getD (i : Nat) :
    multipliers.getD (i % 12) 0 = [2, 3, 4, 5, 6, 7].getD (i % 6) 0 := by
  have h6 : i % 6 = i % 12 % 6 := (Nat.mod_mod_of_dvd i (by norm_num)).symm
  have h12 : i % 12 < 12 := Nat.mod_lt _ (by omega)
  have key : ∀ j, j < 12 →
      multipliers.getD j 0 = [2, 3, 4, 5, 6, 7].getD (j % 6) 0 := by decide
  rw [h6]
  exact key _ h12

theorem weightedSum_eq_spec (l : List Char) (i : Nat) :
    weightedSum l i = specWeightedSum l i := by
  induction l generalizing i with
  | nil => rfl
  | cons c cs ih => rw [weightedSum, specWeightedSum, multipliers_getD, ih]

/-- The guards of `calculateVerificationDigit` pass on a nonempty digit
body of at most 20 characters, leaving the modulo-11 branch. -/
theorem calculateVerificationDigit_eq (body : List Char) (hd : body.all isDigitCh = true)
    (hne : body ≠ []) (h20 : body.length ≤ 20) :
    calculateVerificationDigit (String.mk body) =
      (if 11 - weightedSum body.reverse 0 % 11 = 11 then "0"
       else if 11 - weightedSum body.reverse 0 % 11 = 10 then "K"
       else toString (11 - weightedSum body.reverse 0 % 11)) := by
  have hdo : digitsOnly (String.mk body) = true := by
    simp [digitsOnly, hd]
    simpa [List.isEmpty_iff] using hne
  have hgt : ¬((String.mk body).length > 20) := by
    show ¬(body.length > 20)
    omega
  unfold calculateVerificationDigit
  rw [if_neg (by simp [hdo]), if_neg hgt]

theorem calcVD_singleton (body : List Char) (hd : body.all isDigitCh = true)
    (hne : body ≠ []) (h20 : body.length ≤ 20) :
    ∃ c, calculateVerificationDigit (String.mk body) = String.mk [c] ∧
      checkChar c = true := by
  rw [calculateVerificationDigit_eq body hd hne h20]
  have hlt : weightedSum body.reverse 0 % 11 < 11 := Nat.mod_lt _ (by omega)
  by_cases e11 : 11 - weightedSum body.reverse 0 % 11 = 11
  · exact ⟨'0', by rw [if_pos e11], by decide⟩
  · by_cases e10 : 11 - weightedSum body.reverse 0 % 11 = 10
    · exact ⟨'K', by rw [if_neg e11, if_pos e10], by decide⟩
    · rw [if_neg e11, if_neg e10]
      have h1 : 1 ≤ 11 - weightedSum body.reverse 0 % 11 := by omega
      have h9 : 11 - weightedSum body.reverse 0 % 11 ≤ 9 := by omega
      generalize hg : 11 - weightedSum body.reverse 0 % 11 = rc at h1 h9
      interval_cases rc
      · exact ⟨'1', rfl, by decide⟩
      · exact ⟨'2', rfl, by decide⟩
      · exact ⟨'3', rfl, by decide⟩
      · exact ⟨'4', rfl, by decide⟩
      · exact ⟨'5', rfl, by decide⟩
      · exact ⟨'6', rfl, by decide⟩
      · exact ⟨'7', rfl, by decide⟩
      · exact ⟨'8', rfl, by decide⟩
      · exact ⟨'9', rfl, by decide⟩

theorem calcVD_ne_empty (body : List Char) (hd : body.all isDigitCh = true)
    (hne : body ≠ []) (h20 : body.length ≤ 20) :
    calculateVerificationDigit (String.mk body) ≠ "" := by
  obtain ⟨c, hc, _⟩ := calcVD_singleton body hd hne h20
  rw [hc]
  intro h
  simpa using congrArg String.data h

/-! ## Characterization of the validator core -/

theorem isValidRutCore_checksum (rutString cleanedRut : String) {body : List Char} {dv : Char}
    (hm : hasMalformedSeparators rutString = false)
    (h20 : cleanedRut.length ≤ 20)
    (hsplit : splitRut cleanedRut.data = some (body, dv))
    (hcd : calculateVerificationDigit (String.mk body) ≠ "")
    (hamb : hasSeparatorIn rutString = true ∨ 8 ≤ body.length) :
    isValidRutCore rutString cleanedRut =
      decide (calculateVerificationDigit (String.mk body) = String.mk [dv]) := by
  obtain ⟨hdata, hbne, _, _⟩ := splitRut_eq_some_iff.mp hsplit
  have hlen2 : 2 ≤ cleanedRut.length := by
    rw [string_length_data, hdata]
    simp
    cases body
    · exact absurd rfl hbne
    · simp
  have hb20 : body.length ≤ 20 := by
    rw [string_length_data, hdata] at h20
    simp at h20
    omega
  unfold isValidRutCore
  rw [if_neg (by simp [hm]), if_neg (by omega), if_neg (by omega)]
  split
  next heq => rw [hsplit] at heq; exact absurd heq (by simp)
  next rutNumber provided heq =>
    rw [hsplit] at heq
    simp only [Option.some.injEq, Prod.mk.injEq] at heq
    obtain ⟨rfl, rfl⟩ := heq
    rw [if_neg (by omega), if_neg (by simpa using hcd), if_neg (by
      rintro ⟨hs, hl⟩
      rcases hamb with hsep | hlen
      · rw [hsep] at hs
        exact absurd hs (by simp)
      · omega)]

theorem isValidRutCore_ambiguous (rutString cleanedRut : String) {body : List Char} {dv : Char}
    (hsplit : splitRut cleanedRut.data = some (body, dv))
    (hsep : hasSeparatorIn rutString = false) (hlen : body.length ≤ 7) :
    isValidRutCore rutString cleanedRut = false := by
  unfold isValidRutCore
  split_ifs with h1 h2 h3
  · rfl
  · rfl
  · rfl
  · split
    next heq => rfl
    next rutNumber provided heq =>
      rw [hsplit] at heq
      simp only [Option.some.injEq, Prod.mk.injEq] at heq
      obtain ⟨rfl, rfl⟩ := heq
      split_ifs with h4 h5 h6
      · rfl
      · rfl
      · rfl
      · exact absurd ⟨hsep, hlen⟩ h6

/-! ## Validator-level lemmas -/

theorem isValidRut_str (s : String) (flag : Bool) :
    isValidRut (.str s) flag = isValidRutCore s (cleanString s) := rfl

theorem cleanRut_str (s : String) : cleanRut (.str s) = cleanString s := rfl

theorem isValidRut_eq_true_iff (rut : RawInput) (flag : Bool) :
    isValidRut rut flag = true ↔
      ∃ s, jsString rut = .ok s ∧ isValidRutCore s (cleanRut rut) = true := by
  unfold isValidRut isValidRutTry
  cases h : jsString rut <;> simp [h]

/-- Inversion of a successful validation: every test of the source's
single-pass sequence passed. -/
theorem isValidRut_true_elim (rut : RawInput) (flag : Bool)
    (h : isValidRut rut flag = true) :
    ∃ s body dv,
      jsString rut = .ok s ∧
      hasMalformedSeparators s = false ∧
      (cleanRut rut).length ≤ 20 ∧
      splitRut (cleanRut rut).data = some (body, dv) ∧
      calculateVerificationDigit (String.mk body) = String.mk [dv] ∧
      (hasSeparatorIn s = true ∨ 8 ≤ body.length) := by
  obtain ⟨s, hjs, hcore⟩ := (isValidRut_eq_true_iff rut flag).mp h
  refine ⟨s, ?_⟩
  unfold isValidRutCore at hcore
  split_ifs at hcore with h1 h2 h3
  split at hcore
  next heq => exact Bool.noConfusion hcore
  next rutNumber provided heq =>
    simp at hcore
    obtain ⟨hb20, hcne, hamb, hcd⟩ := hcore
    refine ⟨rutNumber, provided, hjs, ?_, by omega, heq, hcd, ?_⟩
    · cases hm : hasMalformedSeparators s
      · rfl
      · exact absurd hm h1
    · rcases hamb with hs | hlen
      · left; exact hs
      · right; omega

theorem formatRut_eq_some (rut : RawInput) (flag : Bool) {body : List Char} {dv : Char}
    (hv : isValidRut rut flag = true)
    (hsplit : splitRut (cleanRut rut).data = some (body, dv)) :
    formatRut rut flag = some ⟨joinDot (splitGroups body) ++ '-' :: [dv]⟩ := by
  unfold formatRut
  rw [if_neg (by simp [hv])]
  split
  next heq => rw [hsplit] at heq; exact absurd heq (by simp)
  next b d heq =>
    rw [hsplit] at heq
    simp only [Option.some.injEq, Prod.mk.injEq] at heq
    obtain ⟨rfl, rfl⟩ := heq
    rfl

theorem formatRut_eq_none (rut : RawInput) (flag : Bool)
    (hv : isValidRut rut flag = false) :
    formatRut rut flag = none := by
  unfold formatRut
  rw [if_pos hv]

/-! ## Grouping lemmas -/

theorem splitGroups_join (l : List Char) : (splitGroups l).flatten = l := by
  have H : ∀ n l, List.length l ≤ n → (splitGroups l).flatten = l := by
    intro n
    induction n with
    | zero =>
      intro l hl
      rw [splitGroups]
      split_ifs with h
      · omega
      · simp
    | succ n ih =>
      intro l hl
      rw [splitGroups]
      split_ifs with h
      · rw [List.flatten_append, ih _ (by simp [List.length_take]; omega)]
        simp [List.take_append_drop]
      · simp
  exact H l.length l (le_refl _)

theorem splitGroups_mem_ne_nil {l : List Char} (hne : l ≠ []) :
    ∀ g ∈ splitGroups l, g ≠ [] := by
  have H : ∀ n l, List.length l ≤ n → l ≠ [] → ∀ g ∈ splitGroups l, g ≠ [] := by
    intro n
    induction n with
    | zero =>
      intro l hl hne g hg
      cases l
      · exact absurd rfl hne
      · simp at hl
    | succ n ih =>
      intro l hl hne g hg
      rw [splitGroups] at hg
      split_ifs at hg with h
      · rw [List.mem_append] at hg
        rcases hg with hg | hg
        · refine ih _ (by simp [List.length_take]; omega) ?_ g hg
          intro he
          have := congrArg List.length he
          simp [List.length_take] at this
          omega
        · simp at hg
          subst hg
          intro he
          have := congrArg List.length he
          simp [List.length_drop] at this
          omega
      · simp at hg
        subst hg
        exact hne
  exact H l.length l (le_refl _) hne

/-! ## Separator-adjacency machinery for the formatted output -/

/-- A separator character (`-` or `.`), by code point. -/
def isSepCh (c : Char) : Bool := decide (c.toNat = 45 ∨ c.toNat = 46)

/-- No two adjacent characters are both separators. -/
def noAdjSep : List Char → Bool
  | a :: b :: rest => !(isSepCh a && isSepCh b) && noAdjSep (b :: rest)
  | _ => true

theorem noAdjSep_tail {c : Char} {cs : List Char} (h : noAdjSep (c :: cs) = true) :
    noAdjSep cs = true := by
  cases cs with
  | nil => rfl
  | cons d ds =>
    rw [noAdjSep, Bool.and_eq_true] at h
    exact h.2

theorem noAdjSep_two_false {a b : Char} {l : List Char} (h : noAdjSep l = true)
    (ha : isSepCh a = true) (hb : isSepCh b = true) : hasInfixL [a, b] l = false := by
  induction l with
  | nil => rfl
  | cons c cs ih =>
    rw [hasInfixL, ih (noAdjSep_tail h), Bool.or_false]
    cases cs with
    | nil => simp [startsWithL]
    | cons d ds =>
      rw [noAdjSep, Bool.and_eq_true] at h
      have hnot := h.1
      cases hv : startsWithL [a, b] (c :: d :: ds) with
      | false => rfl
      | true =>
        obtain ⟨t, ht⟩ := startsWithL_two_iff.mp hv
        injection ht with h1 ht2
        injection ht2 with h2 _
        rw [h1, h2, ha, hb] at hnot
        simp at hnot

theorem isSepCh_false_of_digit {c : Char} (hc : isDigitCh c = true) :
    isSepCh c = false := by
  rw [isDigitCh_iff] at hc
  simp [isSepCh]
  omega

theorem noAdjSep_digits_append {g tl : List Char} (hg : ∀ c ∈ g, isDigitCh c = true)
    (ht : noAdjSep tl = true) : noAdjSep (g ++ tl) = true := by
  induction g with
  | nil => simpa using ht
  | cons a as ih =>
    have hih := ih (fun c hc => hg c (List.mem_cons_of_mem _ hc))
    have ha : isSepCh a = false := isSepCh_false_of_digit (hg a (by simp))
    rw [List.cons_append]
    cases hend : as ++ tl with
    | nil => rfl
    | cons b bs =>
      rw [hend] at hih
      rw [noAdjSep, ha]
      simpa using hih

theorem noAdjSep_dot_cons {c : Char} {l : List Char} (hc : isDigitCh c = true)
    (h : noAdjSep (c :: l) = true) : noAdjSep ('.' :: c :: l) = true := by
  rw [noAdjSep, isSepCh_false_of_digit hc]
  simpa using h

theorem joinDot_cons_exists (g : List Char) (gs : List (List Char)) :
    ∃ r, joinDot (g :: gs) = g ++ r := by
  cases gs with
  | nil => exact ⟨[], by simp [joinDot]⟩
  | cons g2 gs2 => exact ⟨'.' :: joinDot (g2 :: gs2), rfl⟩

theorem noAdjSep_joinDot_append (gs : List (List Char)) (tl : List Char)
    (hg : ∀ g ∈ gs, g ≠ [] ∧ ∀ c ∈ g, isDigitCh c = true)
    (ht : noAdjSep tl = true) : noAdjSep (joinDot gs ++ tl) = true := by
  induction gs with
  | nil => simpa using ht
  | cons g gs2 ih =>
    cases gs2 with
    | nil =>
      rw [joinDot]
      exact noAdjSep_digits_append (hg g (by simp)).2 ht
    | cons g2 gs3 =>
      have hih := ih (fun g' hm => hg g' (List.mem_cons_of_mem _ hm))
      have hg2 := hg g2 (by simp)
      obtain ⟨c2, cs2, hc2⟩ : ∃ c2 cs2, g2 = c2 :: cs2 := by
        cases g2 with
        | nil => exact absurd rfl hg2.1
        | cons x xs => exact ⟨x, xs, rfl⟩
      obtain ⟨r, hr⟩ := joinDot_cons_exists g2 gs3
      have hJ : joinDot (g2 :: gs3) ++ tl = c2 :: (cs2 ++ r ++ tl) := by
        rw [hr, hc2]
        simp [List.append_assoc]
      have hc2dig : isDigitCh c2 = true := hg2.2 c2 (by rw [hc2]; simp)
      rw [joinDot, List.append_assoc, List.cons_append, hJ]
      refine noAdjSep_digits_append (hg g (by simp)).2 ?_
      exact noAdjSep_dot_cons hc2dig (hJ ▸ hih)

theorem noAdjSep_dash_pair {dv : Char} (hdv : checkChar dv = true) :
    noAdjSep ('-' :: [dv]) = true := by
  have : isSepCh dv = false := by
    rw [checkChar_iff] at hdv
    simp [isSepCh]
    omega
  rw [noAdjSep, this]
  simp [noAdjSep]

/-- The formatted output never contains a malformed separator pair. -/
theorem formatted_not_malformed {body : List Char} {dv : Char}
    (hbody : ∀ c ∈ body, isDigitCh c = true) (hbne : body ≠ []) (hdv : checkChar dv = true) :
    hasMalformedSeparators ⟨joinDot (splitGroups body) ++ '-' :: [dv]⟩ = false := by
  have hgs : ∀ g ∈ splitGroups body, g ≠ [] ∧ ∀ c ∈ g, isDigitCh c = true := by
    intro g hgmem
    refine ⟨splitGroups_mem_ne_nil hbne g hgmem, ?_⟩
    intro c hc
    apply hbody
    rw [← splitGroups_join body]
    exact List.mem_flatten.mpr ⟨g, hgmem, hc⟩
  have hall : noAdjSep (joinDot (splitGroups body) ++ '-' :: [dv]) = true :=
    noAdjSep_joinDot_append _ _ hgs (noAdjSep_dash_pair hdv)
  show (hasInfixL ['-', '-'] _ || hasInfixL ['.', '.'] _ ||
    hasInfixL ['.', '-'] _ || hasInfixL ['-', '.'] _) = false
  rw [noAdjSep_two_false hall (by decide) (by decide),
    noAdjSep_two_false hall (by decide) (by decide),
    noAdjSep_two_false hall (by decide) (by decide),
    noAdjSep_two_false hall (by decide) (by decide)]
  rfl

theorem cleanChars_joinDot (gs : List (List Char))
    (hg : ∀ g ∈ gs, ∀ c ∈ g, isDigitCh c = true) :
    cleanChars (joinDot gs) = gs.flatten := by
  induction gs with
  | nil => rfl
  | cons g gs2 ih =>
    cases gs2 with
    | nil =>
      rw [joinDot]
      have : cleanChars g = g :=
        cleanChars_of_fixed (fun c hc => checkChar_of_digit (hg g (by simp) c hc))
      simp [this]
    | cons g2 gs3 =>
      rw [joinDot, cleanChars_append,
        cleanChars_cons_removed (by decide),
        ih (fun g' h' => hg g' (List.mem_cons_of_mem _ h')),
        cleanChars_of_fixed (fun c hc => checkChar_of_digit (hg g (by simp) c hc))]
      simp

/-- Cleaning the formatted output recovers the canonical `body ++ [dv]`. -/
theorem cleanString_formatted {body : List Char} {dv : Char}
    (hbody : ∀ c ∈ body, isDigitCh c = true) (hdv : checkChar dv = true) :
    cleanString ⟨joinDot (splitGroups body) ++ '-' :: [dv]⟩ = ⟨body ++ [dv]⟩ := by
  unfold cleanString
  congr 1
  show cleanChars (joinDot (splitGroups body) ++ '-' :: [dv]) = body ++ [dv]
  have hgs : ∀ g ∈ splitGroups body, ∀ c ∈ g, isDigitCh c = true := by
    intro g hgmem c hc
    apply hbody
    rw [← splitGroups_join body]
    exact List.mem_flatten.mpr ⟨g, hgmem, hc⟩
  rw [cleanChars_append, cleanChars_joinDot _ hgs, splitGroups_join,
    cleanChars_cons_removed (by decide)]
  congr 1
  exact cleanChars_of_fixed (fun c hc => by
    simp at hc
    subst hc
    exact hdv)

theorem hasSeparatorIn_formatted (pre : List Char) (dv : Char) :
    hasSeparatorIn ⟨pre ++ '-' :: [dv]⟩ = true := by
  unfold hasSeparatorIn
  rw [List.any_eq_true]
  exact ⟨'-', by simp, by decide⟩

/-! ## The spec-side formatter (grouping by 3 from the right) -/

/-- Follows the spec's words (§4.5): chunks of 3 taken from the right,
realised by chunking the reversed digit list from the left. -/
def chunk3 : List Char → List (List Char)
  | [] => []
  | [a] => [[a]]
  | [a, b] => [[a, b]]
  | a :: b :: c :: rest => [a, b, c] :: chunk3 rest

/-- Follows the spec's words (§4.5): the identifier body split into groups
of 3 digits from the right (leftmost group 1–3 digits). -/
def specGroups (l : List Char) : List (List Char) :=
  ((chunk3 l.reverse).map List.reverse).reverse

/-- Follows the spec's words (§4.5): groups joined with `.`, then `-` and
the check character appended. -/
def specFormat (body : List Char) (dv : Char) : String :=
  ⟨List.intercalate ['.'] (specGroups body) ++ '-' :: [dv]⟩

theorem joinDot_eq_intercalate (gs : List (List Char)) :
    joinDot gs = List.intercalate ['.'] gs := by
  induction gs with
  | nil => rfl
  | cons g gs2 ih =>
    cases gs2 with
    | nil => simp [joinDot, List.intercalate]
    | cons g2 gs3 =>
      rw [joinDot, ih]
      simp [List.intercalate, List.intersperse]

theorem splitGroups_eq_specGroups {l : List Char} (hne : l ≠ []) :
    splitGroups l = specGroups l := by
  have H : ∀ n l, List.length l ≤ n → l ≠ [] → splitGroups l = specGroups l := by
    intro n
    induction n with
    | zero =>
      intro l hl hne
      cases l
      · exact absurd rfl hne
      · simp at hl
    | succ n ih =>
      intro l hl hne
      rw [splitGroups]
      split_ifs with h
      · have h3 : (List.drop (l.length - 3) l).length = 3 := by
          rw [List.length_drop]
          omega
        obtain ⟨a, b, c, habc⟩ := List.length_eq_three.mp h3
        have hsplit3 : l = List.take (l.length - 3) l ++ List.drop (l.length - 3) l :=
          (List.take_append_drop _ l).symm
        have hrev : l.reverse =
            (List.drop (l.length - 3) l).reverse ++ (List.take (l.length - 3) l).reverse := by
          rw [hsplit3]
          rw [List.reverse_append]
          congr 1 <;> rw [← hsplit3]
        have htake_ne : List.take (l.length - 3) l ≠ [] := by
          intro he
          have := congrArg List.length he
          simp [List.length_take] at this
          omega
        rw [ih _ (by simp [List.length_take]; omega) htake_ne]
        unfold specGroups
        rw [hrev, habc]
        show _ = ((chunk3 (c :: b :: a :: _)).map List.reverse).reverse
        rw [chunk3]
        simp [habc]
      · unfold specGroups
        have h1 : l.length ≤ 3 := by omega
        match l, hne with
        | [a], _ => rfl
        | [a, b], _ => rfl
        | [a, b, c], _ => rfl
        | a :: b :: c :: d :: rest, _ => simp at h1
  exact H l.length l (le_refl _) hne

/-! ## Claims -/

/-- Claim C1: for every input that passes the structural checks (no
malformed separator sequence, canonical form splitting into a digit body
and a check character within the 2–20 length bound, computable checksum):
if the original text has no `.` or `-` and the body has at most 7 digits,
`isValidRut` is `false` regardless of the checksum; if a separator is
present or the body has at least 8 digits, `isValidRut` is `true` iff the
computed check character equals the supplied one. -/
theorem C1_ambiguity_policy (s : String) (flag : Bool) (body : List Char) (dv : Char)
    (hm : hasMalformedSeparators s = false)
    (hlen : (cleanString s).length ≤ 20)
    (hsplit : splitRut (cleanString s).data = some (body, dv))
    (hcd : calculateVerificationDigit (String.mk body) ≠ "") :
    ((hasSeparatorIn s = false ∧ body.length ≤ 7) →
      isValidRut (RawInput.str s) flag = false)
    ∧ ((hasSeparatorIn s = true ∨ 8 ≤ body.length) →
      (isValidRut (RawInput.str s) flag = true ↔
        calculateVerificationDigit (String.mk body) = String.mk [dv])) := by
  constructor
  · rintro ⟨hsep, hle⟩
    rw [isValidRut_str]
    exact isValidRutCore_ambiguous s (cleanString s) hsplit hsep hle
  · intro hamb
    rw [isValidRut_str, isValidRutCore_checksum s (cleanString s) hm hlen hsplit hcd hamb]
    simp

theorem C1_ambiguity_policy_witness :
    isValidRut (RawInput.str "1971374-1") false = true :=
  ((C1_ambiguity_policy "1971374-1" false ['1', '9', '7', '1', '3', '7', '4'] '1'
    (by decide) (by decide) (by decide) (by decide)).2
    (Or.inl (by decide))).mpr (by decide)

/-- Claim C2: on every body of 1–20 ASCII digits,
`calculateVerificationDigit` computes exactly the spec's formula: reverse
the digits, weight cyclically by `2,3,4,5,6,7` (period 6), sum, take
`rawCheck = 11 - sum % 11`, and map `11 ↦ '0'`, `10 ↦ 'K'`, and any other
`rawCheck` (then 1–9) to its decimal digit character. -/
theorem C2_checkDigit_formula (body : List Char)
    (hd : body.all isDigitCh = true) (h1 : 1 ≤ body.length) (h20 : body.length ≤ 20) :
    calculateVerificationDigit (String.mk body) = specCheckDigit body := by
  have hne : body ≠ [] := by
    intro h
    subst h
    simp at h1
  rw [calculateVerificationDigit_eq body hd hne h20]
  unfold specCheckDigit
  rw [weightedSum_eq_spec]
  show _ = (if 11 - specWeightedSum body.reverse 0 % 11 = 11 then "0"
    else if 11 - specWeightedSum body.reverse 0 % 11 = 10 then "K"
    else ⟨[Char.ofNat (48 + (11 - specWeightedSum body.reverse 0 % 11))]⟩)
  have hlt : specWeightedSum body.reverse 0 % 11 < 11 := Nat.mod_lt _ (by omega)
  by_cases e11 : 11 - specWeightedSum body.reverse 0 % 11 = 11
  · rw [if_pos e11, if_pos e11]
  · by_cases e10 : 11 - specWeightedSum body.reverse 0 % 11 = 10
    · rw [if_neg e11, if_pos e10, if_neg e11, if_pos e10]
    · rw [if_neg e11, if_neg e10, if_neg e11, if_neg e10]
      have hge : 1 ≤ 11 - specWeightedSum body.reverse 0 % 11 := by omega
      have hle : 11 - specWeightedSum body.reverse 0 % 11 ≤ 9 := by omega
      generalize 11 - specWeightedSum body.reverse 0 % 11 = rc at hge hle
      interval_cases rc <;> rfl

theorem C2_checkDigit_formula_witness :
    calculateVerificationDigit (String.mk ['7', '6', '5', '4', '3', '1', '6']) =
      specCheckDigit ['7', '6', '5', '4', '3', '1', '6'] :=
  C2_checkDigit_formula ['7', '6', '5', '4', '3', '1', '6']
    (by decide) (by decide) (by decide)

/-- Claim C3: any input whose textual form contains one of the substrings
dash-dash, dot-dot, dot-dash or dash-dot is rejected by `isValidRut` and
formatted to `none` by `formatRut`, regardless of anything else. -/
theorem C3_malformed_rejected (rut : RawInput) (s : String) (flag : Bool)
    (hjs : jsString rut = .ok s)
    (hmal : (∃ l1 l2, s.data = l1 ++ '-' :: '-' :: l2) ∨
            (∃ l1 l2, s.data = l1 ++ '.' :: '.' :: l2) ∨
            (∃ l1 l2, s.data = l1 ++ '.' :: '-' :: l2) ∨
            (∃ l1 l2, s.data = l1 ++ '-' :: '.' :: l2)) :
    isValidRut rut flag = false ∧ formatRut rut flag = none := by
  have hm : hasMalformedSeparators s = true := by
    unfold hasMalformedSeparators
    rcases hmal with h | h | h | h
    · rw [hasInfixL_two_iff.mpr h]
      simp
    · rw [hasInfixL_two_iff.mpr h]
      simp
    · rw [hasInfixL_two_iff.mpr h]
      simp
    · rw [hasInfixL_two_iff.mpr h]
      simp
  have hv : isValidRut rut flag = false := by
    unfold isValidRut isValidRutTry
    rw [hjs]
    show isValidRutCore s (cleanRut rut) = false
    unfold isValidRutCore
    rw [if_pos hm]
  exact ⟨hv, formatRut_eq_none rut flag hv⟩

theorem C3_malformed_rejected_witness :
    isValidRut (RawInput.str "12345678--5") false = false ∧
    formatRut (RawInput.str "12345678--5") false = none :=
  C3_malformed_rejected (RawInput.str "12345678--5") "12345678--5" false rfl
    (Or.inl ⟨['1', '2', '3', '4', '5', '6', '7', '8'], ['5'], by decide⟩)

/-- Claim C4: `isValidRut`, `cleanRut`, `formatRut` and `validateRut` are
total on every input (null, undefined, numbers, throwing objects
included): the only throwing primitive is caught, and every failure is
surfaced as `false`, the empty string, or `none`. -/
theorem C4_totality (rut : RawInput) (flag : Bool) :
    isValidRut rut flag = ((isValidRutTry rut flag).toOption.getD false)
    ∧ cleanRut RawInput.objThrowing = ""
    ∧ isValidRut RawInput.objThrowing flag = false
    ∧ formatRut RawInput.objThrowing flag = none
    ∧ validateRut RawInput.objThrowing flag =
        { isValid := false, formatted := none, raw := "",
          rutNumber := none, verificationDigit := none }
    ∧ cleanRut RawInput.jsNull = ""
    ∧ isValidRut RawInput.jsNull flag = false
    ∧ validateRut RawInput.jsNull flag =
        { isValid := false, formatted := none, raw := "",
          rutNumber := none, verificationDigit := none } := by
  refine ⟨?_, rfl, rfl, rfl, rfl, rfl, rfl, rfl⟩
  unfold isValidRut
  cases h : isValidRutTry rut flag <;> simp [h, Except.toOption]

/-- Claim C8: `calculateVerificationDigit` returns the empty-string
sentinel (and never faults) on any input that fails the `^[0-9]+$` test
or is longer than 20 characters. -/
theorem C8_checkdigit_guards (s : String)
    (h : digitsOnly s = false ∨ s.length > 20) :
    calculateVerificationDigit s = "" := by
  unfold calculateVerificationDigit
  rcases h with h | h
  · rw [if_pos h]
  · by_cases hd : digitsOnly s = false
    · rw [if_pos hd]
    · rw [if_neg hd, if_pos h]

theorem C8_checkdigit_guards_witness :
    calculateVerificationDigit "12a45" = "" :=
  C8_checkdigit_guards "12a45" (Or.inl (by decide))

/-- Claim C10: the deprecated `requireVerificationDigit` flag is never
read: `isValidRut`, `formatRut` and `validateRut` give identical results
for any two values of the flag on every input. -/
theorem C10_flag_no_effect (rut : RawInput) (b1 b2 : Bool) :
    isValidRut rut b1 = isValidRut rut b2 ∧
    formatRut rut b1 = formatRut rut b2 ∧
    validateRut rut b1 = validateRut rut b2 :=
  ⟨rfl, rfl, rfl⟩

/-- Claim C5: appending the computed check digit to any digit-only body
accepted by the checksum engine yields a string accepted by `isValidRut`,
whenever the combined length and ambiguity rules hold; the concatenation
has no separator, so that means a body of 8–19 digits. -/
theorem C5_append_checkdigit_valid (body : List Char) (flag : Bool)
    (hd : body.all isDigitCh = true) (h8 : 8 ≤ body.length) (h19 : body.length ≤ 19) :
    isValidRut (RawInput.str
      (String.mk body ++ calculateVerificationDigit (String.mk body))) flag = true := by
  have hne : body ≠ [] := by
    intro h
    subst h
    simp at h8
  have h20 : body.length ≤ 20 := by omega
  obtain ⟨c, hc, hcc⟩ := calcVD_singleton body hd hne h20
  rw [hc]
  have happ : String.mk body ++ String.mk [c] = String.mk (body ++ [c]) := rfl
  rw [happ]
  have hall : ∀ x ∈ body ++ [c], checkChar x = true := by
    intro x hx
    rcases List.mem_append.mp hx with hx | hx
    · exact checkChar_of_digit (List.all_eq_true.mp hd x hx)
    · simp at hx
      subst hx
      exact hcc
  have hclean : cleanString (String.mk (body ++ [c])) = String.mk (body ++ [c]) := by
    unfold cleanString
    congr 1
    exact cleanChars_of_fixed hall
  have hsplit : splitRut (String.mk (body ++ [c])).data = some (body, c) := by
    show splitRut (body ++ [c]) = some (body, c)
    exact splitRut_eq_some_iff.mpr ⟨rfl, hne, hd, hcc⟩
  have hlen20 : (String.mk (body ++ [c])).length ≤ 20 := by
    show (body ++ [c]).length ≤ 20
    simp
    omega
  rw [isValidRut_str, hclean,
    isValidRutCore_checksum _ _ (hasMalformedSeparators_eq_false hall) hlen20 hsplit
      (calcVD_ne_empty body hd hne h20) (Or.inr h8), hc]
  simp

theorem C5_append_checkdigit_valid_witness :
    isValidRut (RawInput.str
      (String.mk ['1', '2', '3', '4', '5', '6', '7', '8'] ++
        calculateVerificationDigit
          (String.mk ['1', '2', '3', '4', '5', '6', '7', '8']))) false = true :=
  C5_append_checkdigit_valid ['1', '2', '3', '4', '5', '6', '7', '8'] false
    (by decide) (by decide) (by decide)

theorem validateRut_of_invalid (rut : RawInput) (flag : Bool)
    (hv : isValidRut rut flag = false) :
    validateRut rut flag =
      { isValid := false, formatted := none, raw := cleanRut rut,
        rutNumber := none, verificationDigit := none } := by
  simp only [validateRut]
  rw [hv, if_pos rfl]

theorem validateRut_of_valid (rut : RawInput) (flag : Bool) {body : List Char} {dv : Char}
    (hv : isValidRut rut flag = true)
    (hsplit : splitRut (cleanRut rut).data = some (body, dv)) :
    validateRut rut flag =
      { isValid := true, formatted := formatRut rut flag, raw := cleanRut rut,
        rutNumber := some ⟨body⟩, verificationDigit := some ⟨[dv]⟩ } := by
  simp only [validateRut]
  rw [hv, if_neg (by simp)]
  split
  next heq => rw [hsplit] at heq; exact absurd heq (by simp)
  next b d heq =>
    rw [hsplit] at heq
    simp only [Option.some.injEq, Prod.mk.injEq] at heq
    obtain ⟨rfl, rfl⟩ := heq
    rfl

/-- Claim C9: every `validateRut` result has its `formatted` and
body/check-character fields present exactly when `isValid` is true; on a
failed validation the result is `isValid := false`, `formatted := none`,
`raw` the cleaned canonical form, and both parsed fields absent. -/
theorem C9_result_invariant (rut : RawInput) (flag : Bool) :
    (((validateRut rut flag).formatted ≠ none ∧
      (validateRut rut flag).rutNumber ≠ none ∧
      (validateRut rut flag).verificationDigit ≠ none) ↔
      (validateRut rut flag).isValid = true)
    ∧ ((validateRut rut flag).isValid = false →
        validateRut rut flag =
          { isValid := false, formatted := none, raw := cleanRut rut,
            rutNumber := none, verificationDigit := none }) := by
  cases hv : isValidRut rut flag with
  | false =>
    rw [validateRut_of_invalid rut flag hv]
    constructor
    · constructor
      · rintro ⟨h1, _⟩
        exact absurd rfl h1
      · intro h
        exact absurd h (by simp)
    · intro _
      rfl
  | true =>
    obtain ⟨s, body, dv, hjs, hm, h20, hsplit, hceq, hamb⟩ :=
      isValidRut_true_elim rut flag hv
    rw [validateRut_of_valid rut flag hv hsplit,
      formatRut_eq_some rut flag hv hsplit]
    constructor
    · constructor
      · intro _
        rfl
      · intro _
        exact ⟨by simp, by simp, by simp⟩
    · intro h
      exact absurd h (by simp)

theorem C9_result_invariant_witness :
    validateRut (RawInput.str "12") false =
      { isValid := false, formatted := none, raw := cleanRut (RawInput.str "12"),
        rutNumber := none, verificationDigit := none } :=
  (C9_result_invariant (RawInput.str "12") false).2 (by decide)

/-- Claim C6: for every input accepted by `isValidRut`, the string
produced by `formatRut` itself validates to true, and formatting is
idempotent: formatting the formatted string returns it unchanged. -/
theorem C6_format_roundtrip (rut : RawInput) (flag : Bool) (f : String)
    (hvalid : isValidRut rut flag = true)
    (hfmt : formatRut rut flag = some f) :
    isValidRut (RawInput.str f) flag = true ∧
    formatRut (RawInput.str f) flag = some f := by
  obtain ⟨s, body, dv, hjs, hm, h20, hsplit, hceq, hamb⟩ :=
    isValidRut_true_elim rut flag hvalid
  have hfmt2 := formatRut_eq_some rut flag hvalid hsplit
  rw [hfmt] at hfmt2
  have hf : f = ⟨joinDot (splitGroups body) ++ '-' :: [dv]⟩ := Option.some.inj hfmt2
  obtain ⟨hdata, hbne, hdig, hcc⟩ := splitRut_eq_some_iff.mp hsplit
  have hbodyall : ∀ c ∈ body, isDigitCh c = true := List.all_eq_true.mp hdig
  subst hf
  have hclean : cleanString ⟨joinDot (splitGroups body) ++ '-' :: [dv]⟩ = ⟨body ++ [dv]⟩ :=
    cleanString_formatted hbodyall hcc
  have hb19 : body.length + 1 ≤ 20 := by
    rw [string_length_data, hdata] at h20
    simpa using h20
  have hsplit_f : splitRut (cleanString ⟨joinDot (splitGroups body) ++ '-' :: [dv]⟩).data =
      some (body, dv) := by
    rw [hclean]
    show splitRut (body ++ [dv]) = some (body, dv)
    exact splitRut_eq_some_iff.mpr ⟨rfl, hbne, hdig, hcc⟩
  have hcd_ne : calculateVerificationDigit (String.mk body) ≠ "" := by
    rw [hceq]
    intro hx
    simpa using congrArg String.data hx
  have hlen_f : (cleanString ⟨joinDot (splitGroups body) ++ '-' :: [dv]⟩).length ≤ 20 := by
    rw [hclean]
    show (body ++ [dv]).length ≤ 20
    simpa using hb19
  have hv_f : isValidRut (RawInput.str ⟨joinDot (splitGroups body) ++ '-' :: [dv]⟩) flag =
      true := by
    rw [isValidRut_str,
      isValidRutCore_checksum _ _ (formatted_not_malformed hbodyall hbne hcc) hlen_f
        hsplit_f hcd_ne (Or.inl (hasSeparatorIn_formatted _ _)), hceq]
    simp
  refine ⟨hv_f, ?_⟩
  rw [formatRut_eq_some _ flag hv_f hsplit_f]

theorem C6_format_roundtrip_witness :
    isValidRut (RawInput.str "12.345.678-5") false = true ∧
    formatRut (RawInput.str "12.345.678-5") false = some "12.345.678-5" :=
  C6_format_roundtrip (RawInput.str "12.345.678-5") false "12.345.678-5"
    (by decide)
    (by
      have h1 : isValidRut (RawInput.str "12.345.678-5") false = true := by decide
      have h2 : splitRut (cleanRut (RawInput.str "12.345.678-5")).data =
          some (['1', '2', '3', '4', '5', '6', '7', '8'], '5') := by decide
      rw [formatRut_eq_some _ false h1 h2]
      have h3 : splitGroups ['1', '2', '3', '4', '5', '6', '7', '8'] =
          [['1', '2'], ['3', '4', '5'], ['6', '7', '8']] := by
        simp [splitGroups]
      rw [h3]
      decide)

/-- Claim C7: `formatRut` returns `none` unless `isValidRut` holds; on a
valid input it returns the body grouped in threes from the right (leftmost
group 1–3 digits) joined with dots, then a dash and the check character;
in particular body `12345678` with check `5` formats as `12.345.678-5`. -/
theorem C7_formatter (rut : RawInput) (flag : Bool) :
    (isValidRut rut flag = false → formatRut rut flag = none)
    ∧ (∀ body dv, isValidRut rut flag = true →
        splitRut (cleanRut rut).data = some (body, dv) →
        formatRut rut flag = some (specFormat body dv))
    ∧ formatRut (RawInput.str "123456785") false = some "12.345.678-5" := by
  refine ⟨formatRut_eq_none rut flag, ?_, ?_⟩
  · intro body dv hv hsplit
    obtain ⟨hdata, hbne, hdig, hcc⟩ := splitRut_eq_some_iff.mp hsplit
    rw [formatRut_eq_some rut flag hv hsplit]
    unfold specFormat
    rw [← splitGroups_eq_specGroups hbne, ← joinDot_eq_intercalate]
  · have h1 : isValidRut (RawInput.str "123456785") false = true := by decide
    have h2 : splitRut (cleanRut (RawInput.str "123456785")).data =
        some (['1', '2', '3', '4', '5', '6', '7', '8'], '5') := by decide
    rw [formatRut_eq_some _ false h1 h2]
    have h3 : splitGroups ['1', '2', '3', '4', '5', '6', '7', '8'] =
        [['1', '2'], ['3', '4', '5'], ['6', '7', '8']] := by
      simp [splitGroups]
    rw [h3]
    decide

theorem C7_formatter_witness :
    formatRut (RawInput.str "1-9") false = some (specFormat ['1'] '9') :=
  (C7_formatter (RawInput.str "1-9") false).2.1 ['1'] '9' (by decide) (by decide)

example : cleanRut (.str "12.345.678-5") = "123456785" := by decide
example : calculateVerificationDigit "12345678" = "5" := by decide
example : calculateVerificationDigit "7654316" = "K" := by decide
example : calculateVerificationDigit "1" = "9" := by decide
example : isValidRut (.str "12.345.678-5") false = true := by decide
example : isValidRut (.str "123456785") false = true := by decide
example : isValidRut (.str "19713741") false = false := by decide
example : isValidRut (.str "1971374-1") false = true := by decide
example : isValidRut (.str "12345678--5") false = false := by decide
example : isValidRut (.str "1-9") false = true := by decide
example : validateRut (.str "12") false =
    ⟨false, none, "12", none, none⟩ := by decide
